import Mathlib

/-!
# Resource discovery of clusteradm (package `pkg/discovery/resources`)

A shallow embedding of `githubrepo.go`, `localrepo.go`, `lookup.go` and
`default-repositories.go`.

* Go strings are Lean strings; `len(s)` is the UTF-8 byte length.
* A Go pointer that may be nil is an `Option`; dereferencing `none` is a
  runtime panic, which is an outcome of its own (`Outcome.crash`).
* A Go `error` is `Option Error` (`none` is the nil error).
* The GitHub API, the file system and the Go libraries the package calls
  (`net/url`, `encoding/base64`, `path/filepath`, the semantic version
  library) are fields of an environment `Env`; every call to the outside is
  appended to a trace of `Call`s.
-/

namespace Clusteradm

/-! ## Go strings -/

/-- Bytes of a file or of a downloaded asset. -/
abbrev Bytes := List UInt8

deriving instance DecidableEq for Except

/-- Worker of `strings.Split` for a one-character separator: `cur` holds the
characters of the current segment, most recent first. -/
def splitAux (sep : Char) : List Char → List Char → List (List Char)
  | [], cur => [cur.reverse]
  | c :: cs, cur =>
    if c = sep then cur.reverse :: splitAux sep cs [] else splitAux sep cs (c :: cur)

/-- Go `strings.Split(s, sep)` for a separator of one character. -/
def Split (s : String) (sep : Char) : List String :=
  (splitAux sep s.data []).map String.mk

/-- Removes `pre` from the front of `s` when `s` starts with it. -/
def dropFront : List Char → List Char → Option (List Char)
  | s, [] => some s
  | [], _ :: _ => none
  | c :: cs, p :: ps => if c = p then dropFront cs ps else none

/-- Go `strings.TrimPrefix(s, pre)`. -/
def TrimPrefix (s pre : String) : String :=
  match dropFront s.data pre.data with
  | some rest => String.mk rest
  | none => s

/-- Go `len(s)`: the number of bytes of `s`. -/
def len (s : String) : Nat := s.utf8ByteSize

/-- Worker of `filepath.Ext`: scans the reversed path; `acc` is the suffix
already passed. -/
def extAux : List Char → List Char → List Char
  | [], _ => []
  | c :: cs, acc =>
    if c = '/' then [] else if c = '.' then c :: acc else extAux cs (c :: acc)

/-- Go `filepath.Ext(path)` on a system whose path separator is `/`: the suffix
starting at the last dot of the last element of the path, or the empty string. -/
def Ext (path : String) : String := String.mk (extAux path.data.reverse [])

/-! ## Errors -/

/-- An argument of a format string. -/
inductive Arg where
  | s (v : String)
  | d (v : Nat)
  | slice (v : List String)
deriving DecidableEq, Repr

/-- A Go error value. The format string and its arguments are kept apart. -/
inductive Error where
  /-- A `*github.RateLimitError` returned by the API client. -/
  | rateLimit
  /-- Any other error value made outside this package. -/
  | outside (msg : String)
  /-- The value of `errors.New` or `errors.Errorf`. -/
  | errorf (format : String) (args : List Arg)
  /-- The value of `errors.Wrapf` on a non-nil error. -/
  | wrapf (cause : Error) (format : String) (args : List Arg)
deriving DecidableEq, Repr

/-- The function `errors.Wrapf` of `github.com/pkg/errors`: it returns nil when
the error it is given is nil. -/
def Wrapf (err : Option Error) (format : String) (args : List Arg) : Option Error :=
  match err with
  | none => none
  | some e => some (Error.wrapf e format args)

/-- The error that asks for a personal access token (`githubrepo.go`, line 305). -/
def RateLimitExceeded : Error :=
  Error.errorf "hitting rate limit for github api. Please get a personal API tokens a assign it to the CLUSTERADM_GITHUB_TOKEN env var" []

/-- The error of `getLatestRelease` when no release qualifies (line 134). -/
def NoLatestRelease : Error := Error.errorf "failed to get latest release" []

/-- The error of `Lookup` for a component without a location (`lookup.go`, line 19). -/
def MissingRepository (component : String) : Error :=
  Error.errorf "missing repository for %q" [Arg.s component]

/-- The two errors of the path validation of `lookupGitHubRepository`
(lines 24 and 28). -/
def IsInvalidRepositoryPath (path : String) (e : Error) : Prop :=
  (∃ n, e = Error.errorf "repository path %q is not valid. expected 5 parts, found %d" [Arg.s path, Arg.d n]) ∨
  e = Error.errorf "repository path %q is not valid" [Arg.s path]

/-! ## Data model -/

/-- The type `Resource` of `resource.go`. -/
structure Resource where
  path : String
  content : Bytes
deriving DecidableEq, Repr

/-- The type `ComponentResources` of `resource.go`. -/
structure ComponentResources where
  resources : List Resource
  apply : String
deriving DecidableEq, Repr

/-- The fields of `github.ReleaseAsset` the package reads. -/
structure ReleaseAsset where
  ID : Option Int
  Name : Option String
deriving DecidableEq, Repr

/-- The fields of `github.RepositoryRelease` the package reads. -/
structure RepositoryRelease where
  TagName : Option String
  Assets : List ReleaseAsset
deriving DecidableEq, Repr

/-- The field of `github.RepositoryCommit` and `github.Commit` the package reads. -/
structure Commit where
  SHA : Option String
deriving DecidableEq, Repr

/-- The fields of `github.Branch` the package reads. -/
structure Branch where
  Name : Option String
  Commit : Option Commit
deriving DecidableEq, Repr

/-- The fields of `github.RepositoryTag` the package reads. -/
structure RepositoryTag where
  Name : Option String
  Commit : Option Commit
deriving DecidableEq, Repr

/-- The fields of `github.RepositoryContent` the package reads. -/
structure RepositoryContent where
  Encoding : Option String
  Content : Option String
  Path : Option String
deriving DecidableEq, Repr

/-- The fields of `url.URL` the package reads. -/
structure URL where
  Scheme : String
  Host : String
  Path : String
  Fragment : String
deriving DecidableEq, Repr

/-- The method of `os.FileInfo` the package calls. -/
structure FileInfo where
  IsDir : Bool
deriving DecidableEq, Repr

/-- The type `githubRepository`; `httpClient` is nil or the oauth2 client of a token. -/
structure githubRepository where
  httpClient : Option String
  owner : String
  repo : String
deriving DecidableEq, Repr

/-- The type `localRepository`. -/
structure localRepository where
  path : String
deriving DecidableEq, Repr

/-! ## The outside world -/

/-- A call that leaves the package. -/
inductive Call where
  | oauth2NewClient (token : String)
  | NewClient (httpClient : Option String)
  | ListReleases (owner repo : String)
  | GetReleaseByTag (owner repo tag : String)
  | DownloadReleaseAsset (owner repo : String) (id : Int)
  | ListBranches (owner repo : String)
  | ListTags (owner repo : String)
  | GetContents (owner repo path : String) (ref : Option String)
  | httpGet (url : String)
  | Walk (root : String)
  | ReadFile (path : String)
deriving DecidableEq, Repr

/-- What the outside world answers. The first argument of a GitHub call is the
http client of the repository. `GetContents` has the `Ref` of its options as last
argument and answers a file or the entries of a directory. `DownloadReleaseAsset`
answers a reader (whose reading may fail) or a redirect location. `Walk root` is
the sequence of visits `filepath.Walk` makes below `root` when the callback
returns nil at every visit; the file info of a visit is nil when the file could
not be examined. The lists the API answers hold no nil pointer. -/
structure Env (Version : Type) where
  ListReleases : Option String → String → String → Except Error (List RepositoryRelease)
  GetReleaseByTag : Option String → String → String → String → Except Error (Option RepositoryRelease)
  DownloadReleaseAsset : Option String → String → String → Int → Except Error (Option (Except Error Bytes) × String)
  ListBranches : Option String → String → String → Except Error (List Branch)
  ListTags : Option String → String → String → Except Error (List RepositoryTag)
  GetContents : Option String → String → String → String → Option String →
    Except Error (Option RepositoryContent × List RepositoryContent)
  httpGet : String → Except Error (Except Error Bytes)
  Walk : String → List (String × Option FileInfo)
  ReadFile : String → Except Error Bytes
  ParseSemantic : String → Option Version
  LessThan : Version → Version → Bool
  DecodeString : String → Except Error Bytes
  urlParse : String → Except Error URL
  filepathDir : String → String
  filepathJoin : String → String → String

/-- How a call ends: it returns, it panics on a nil pointer, or the model ran out
of fuel. -/
inductive Outcome (α : Type) where
  | ret (a : α)
  | crash
  | outOfFuel
deriving DecidableEq, Repr

/-- A run: the calls made to the outside, in order, and how the run ended. -/
structure Run (α : Type) where
  calls : List Call
  out : Outcome α
deriving DecidableEq, Repr

/-- Sequencing of runs. -/
def Run.bind {α β : Type} (x : Run α) (f : α → Run β) : Run β :=
  match x.out with
  | Outcome.ret a => ⟨x.calls ++ (f a).calls, (f a).out⟩
  | Outcome.crash => ⟨x.calls, Outcome.crash⟩
  | Outcome.outOfFuel => ⟨x.calls, Outcome.outOfFuel⟩

instance : Monad Run where
  pure a := ⟨[], Outcome.ret a⟩
  bind := Run.bind

/-- One call to the outside. -/
def call (c : Call) : Run Unit := ⟨[c], Outcome.ret ()⟩

/-- A nil pointer dereference. -/
def crash {α : Type} : Run α := ⟨[], Outcome.crash⟩

/-! ## `githubrepo.go` -/

section Github

variable {Version : Type}

/-- The method `authenticate`: the repository gets the oauth2 client of the token. -/
def authenticate (r : githubRepository) (token : String) : Run githubRepository := do
  call (Call.oauth2NewClient token)
  pure { r with httpClient := some token }

/-- The method `handleGithubErr` (lines 303 to 308). -/
def handleGithubErr (err : Option Error) (message : String) (args : List String) : Option Error :=
  match err with
  | some Error.rateLimit => some RateLimitExceeded
  | _ => Wrapf err message [Arg.slice args]

/-- The body of the loop of `getLatestRelease` (lines 114 to 131); the state is
`latestRelease` and `latestReleaseVersion`. -/
def latestStep (env : Env Version) (st : Option RepositoryRelease × Option Version)
    (r : RepositoryRelease) : Option RepositoryRelease × Option Version :=
  match r.TagName with
  | none => st
  | some tag =>
    match env.ParseSemantic tag with
    | none => st
    | some sv =>
      match st.2 with
      | none => (some r, some sv)
      | some latestReleaseVersion =>
        if env.LessThan latestReleaseVersion sv then (some r, some sv) else st

/-- The method `getLatestRelease` (lines 98 to 139). -/
def getLatestRelease (env : Env Version) (r : githubRepository) :
    Run (Option RepositoryRelease × Option Error) := do
  call (Call.NewClient r.httpClient)
  call (Call.ListReleases r.owner r.repo)
  match env.ListReleases r.httpClient r.owner r.repo with
  | Except.error err => pure (none, handleGithubErr (some err) "failed to read releases" [])
  | Except.ok releases =>
    match (releases.foldl (latestStep env) (none, none)).1 with
    | none => pure (none, some NoLatestRelease)
    | some latestRelease =>
      match latestRelease.TagName with
      | none => crash
      | some _ => pure (some latestRelease, none)

/-- The method `getReleaseByTag` (lines 142 to 158). -/
def getReleaseByTag (env : Env Version) (r : githubRepository) (tag : String) :
    Run (Option RepositoryRelease × Option Error) := do
  call (Call.NewClient r.httpClient)
  call (Call.GetReleaseByTag r.owner r.repo tag)
  match env.GetReleaseByTag r.httpClient r.owner r.repo tag with
  | Except.error err => pure (none, handleGithubErr (some err) "failed to read release %q" [tag])
  | Except.ok none => pure (none, some (Error.errorf "failed to get release %q" [Arg.s tag]))
  | Except.ok (some release) => pure (some release, none)

/-- The loop of lines 169 to 174: the id of the first asset that has the name. -/
def findAssetId (assetName : String) : List ReleaseAsset → Option Int
  | [] => none
  | a :: rest => if a.Name = some assetName then a.ID else findAssetId assetName rest

/-- The dereference `*release.TagName` in the arguments of an error. -/
def derefTagName (release : RepositoryRelease) : Run String :=
  match release.TagName with
  | none => crash
  | some tag => pure tag

/-- The method `downloadResourceFromReleaseAssets` (lines 161 to 218). -/
def downloadResourceFromReleaseAssets (env : Env Version) (r : githubRepository)
    (release : Option RepositoryRelease) (assetName : String) :
    Run (List Resource × Option Error) := do
  call (Call.NewClient r.httpClient)
  match release with
  | none => crash
  | some release =>
    match findAssetId assetName release.Assets with
    | none => do
      let tag ← derefTagName release
      pure ([], some (Error.errorf "the %q release does not contain the asset %q" [Arg.s tag, Arg.s assetName]))
    | some assetId => do
      call (Call.DownloadReleaseAsset r.owner r.repo assetId)
      match env.DownloadReleaseAsset r.httpClient r.owner r.repo assetId with
      | Except.error err => do
        let tag ← derefTagName release
        pure ([], handleGithubErr (some err) "failed to download asset %q from %q release" [tag, assetName])
      | Except.ok (some rc, _) =>
        match rc with
        | Except.error err => do
          let tag ← derefTagName release
          pure ([], Wrapf (some err) "failed to read downloaded asset %q from %q release" [Arg.s tag, Arg.s assetName])
        | Except.ok content => pure ([⟨assetName, content⟩], none)
      | Except.ok (none, red) => do
        call (Call.httpGet red)
        match env.httpGet red with
        | Except.error err => do
          let tag ← derefTagName release
          pure ([], Wrapf (some err) "failed to download asset %q from %q release from redirect location %q"
            [Arg.s tag, Arg.s assetName, Arg.s red])
        | Except.ok (Except.error err) => do
          let tag ← derefTagName release
          pure ([], Wrapf (some err) "failed to read downloaded asset %q from %q release" [Arg.s tag, Arg.s assetName])
        | Except.ok (Except.ok content) => pure ([⟨assetName, content⟩], none)

/-- The dereference `*b.Commit.SHA` of lines 237 and 249. -/
def derefSHA (commit : Option Commit) : Run (String × Option Error) :=
  match commit with
  | none => crash
  | some c =>
    match c.SHA with
    | none => crash
    | some sha => pure (sha, none)

/-- The method `getSHA` (lines 223 to 254). The error wrapped in the last line is
the error of `ListTags`, which is nil there. -/
def getSHA (env : Env Version) (r : githubRepository) (branchOrTag : String) :
    Run (String × Option Error) := do
  call (Call.NewClient r.httpClient)
  call (Call.ListBranches r.owner r.repo)
  match env.ListBranches r.httpClient r.owner r.repo with
  | Except.error err => pure ("", handleGithubErr (some err) "error reading branches" [])
  | Except.ok branches =>
    match branches.find? (fun b => decide (b.Name = some branchOrTag)) with
    | some b => derefSHA b.Commit
    | none => do
      call (Call.ListTags r.owner r.repo)
      match env.ListTags r.httpClient r.owner r.repo with
      | Except.error err => pure ("", handleGithubErr (some err) "failed to list tags" [])
      | Except.ok tags =>
        match tags.find? (fun t => decide (t.Name = some branchOrTag)) with
        | some t => derefSHA t.Commit
        | none => pure ("", Wrapf none "%q does not match any branch or tag" [Arg.s branchOrTag])

/-- The loop of lines 292 to 298 of `downloadResourcesFromTree`; `recurse` is the
recursive call at the same SHA and `resources` what was collected so far. -/
def downloadItems (recurse : String → Run (List Resource × Option Error)) :
    List RepositoryContent → List Resource → Run (List Resource × Option Error)
  | [], resources => pure (resources, none)
  | item :: rest, resources =>
    match item.Path with
    | none => crash
    | some itemPath => do
      let (itemResources, err) ← recurse itemPath
      match err with
      | some e => pure ([], some e)
      | none => downloadItems recurse rest (resources ++ itemResources)

/-- The method `downloadResourcesFromTree` (lines 258 to 301). The depth of the
recursion is bounded by the fuel. `GetContents` is called with nil options, as in
line 265; the error wrapped in line 274 is the error of `GetContents`, which is nil
there. -/
def downloadResourcesFromTree (env : Env Version) (r : githubRepository) :
    Nat → String → String → Run (List Resource × Option Error)
  | 0, _, _ => ⟨[], Outcome.outOfFuel⟩
  | fuel + 1, SHA, path => do
    call (Call.NewClient r.httpClient)
    call (Call.GetContents r.owner r.repo path none)
    match env.GetContents r.httpClient r.owner r.repo path none with
    | Except.error err => pure ([], handleGithubErr (some err) "failed to get content for %q" [path])
    | Except.ok (some fileContent, _) =>
      if fileContent.Encoding = none ∨ fileContent.Encoding ≠ some "base64" then
        pure ([], Wrapf none "invalid encoding for %q" [Arg.s path])
      else
        match fileContent.Content with
        | none => crash
        | some encoded =>
          match env.DecodeString encoded with
          | Except.error err => pure ([], Wrapf (some err) "failed to decode %q" [Arg.s path])
          | Except.ok content =>
            match fileContent.Path with
            | none => crash
            | some filePath => pure ([⟨filePath, content⟩], none)
    | Except.ok (none, dirContent) =>
      downloadItems (downloadResourcesFromTree env r fuel SHA) dirContent []

/-- The function `lookupGitHubRepository` (lines 18 to 66). The errors of
`getLatestRelease`, `getReleaseByTag` and `getSHA` are dropped, as in lines 45, 47
and 61; `*release.TagName` of line 50 is a dereference of both pointers. -/
def lookupGitHubRepository (env : Env Version) (fuel : Nat) (path token : String) :
    Run (List Resource × Option Error) :=
  let t := Split (TrimPrefix path "/") '/'
  if t.length < 5 then
    pure ([], some (Error.errorf "repository path %q is not valid. expected 5 parts, found %d"
      [Arg.s path, Arg.d t.length]))
  else if ¬ (t.getD 2 "" = "releases" ∨ t.getD 2 "" = "tree") then
    pure ([], some (Error.errorf "repository path %q is not valid" [Arg.s path]))
  else do
    let r0 : githubRepository := { httpClient := none, owner := t.getD 0 "", repo := t.getD 1 "" }
    let r ← (if token ≠ "" then authenticate r0 token else pure r0)
    if t.getD 2 "" = "releases" then do
      let (release, _) ←
        (if t.getD 3 "" = "latest" then getLatestRelease env r else getReleaseByTag env r (t.getD 3 ""))
      match release with
      | none => crash
      | some rel => do
        let _ ← derefTagName rel
        downloadResourceFromReleaseAssets env r release (t.getD 4 "")
    else do
      let (sha, _) ←
        (if len (t.getD 3 "") = 40 then pure (t.getD 3 "", none) else getSHA env r (t.getD 3 ""))
      downloadResourcesFromTree env r fuel sha (t.getD 4 "")

end Github

/-! ## `localrepo.go` -/

section Local

variable {Version : Type}

/-- The callback of `filepath.Walk` in `getResources` (lines 40 to 51), run over
the visits; `resourcePaths` is what was recorded so far. The callback returns nil
at every visit, so the error `filepath.Walk` returns is nil. -/
def walkFn : List (String × Option FileInfo) → List String → Run (List String × Option Error)
  | [], resourcePaths => pure (resourcePaths, none)
  | (path, info) :: rest, resourcePaths =>
    match info with
    | none => crash
    | some info =>
      if info.IsDir then walkFn rest resourcePaths
      else if ¬ (Ext path = ".yaml" ∨ Ext path = ".yml") then walkFn rest resourcePaths
      else walkFn rest (resourcePaths ++ [path])

/-- The loop of lines 58 to 70 of `getResources`. -/
def readResources (env : Env Version) (r : localRepository) :
    List String → List Resource → Run (List Resource × Option Error)
  | [], resources => pure (resources, none)
  | path :: rest, resources => do
    call (Call.ReadFile path)
    match env.ReadFile path with
    | Except.error err =>
      pure ([], Wrapf (some err) "error reading resource content for %q" [Arg.s path])
    | Except.ok content =>
      readResources env r rest (resources ++ [⟨TrimPrefix path (env.filepathDir r.path), content⟩])

/-- The method `getResources` of `localRepository` (lines 37 to 73). -/
def getResources (env : Env Version) (r : localRepository) : Run (List Resource × Option Error) := do
  call (Call.Walk r.path)
  let (resourcePaths, err) ← walkFn (env.Walk r.path) []
  match err with
  | some e => pure ([], Wrapf (some e) "error reading local repository" [])
  | none => readResources env r resourcePaths []

/-- The function `lookupLocalRepository` (lines 14 to 21). -/
def lookupLocalRepository (env : Env Version) (path : String) : Run (List Resource × Option Error) :=
  getResources env { path := path }

end Local

/-! ## `default-repositories.go` and `lookup.go` -/

section LookupSection

variable {Version : Type}

/-- The map `defaultRepositories`. -/
def defaultRepositories : List (String × String) :=
  [("CAPI", "https://github.com/kubernetes-sigs/cluster-api/releases/latest/cluster-api-components.yaml"),
   ("aws", "https://github.com/kubernetes-sigs/cluster-api-provider-aws/releases/latest/infrastructure-components.yaml"),
   ("vsphere", "https://github.com/kubernetes-sigs/cluster-api-provider-vsphere/releases/latest/infrastructure-components.yaml"),
   ("kubeadm", "https://github.com/kubernetes-sigs/cluster-api-bootstrap-provider-kubeadm/releases/latest/bootstrap-components.yaml")]

/-- Lines 23 to 60 of `Lookup`: what `Lookup` does once the location `rRawUrl` of
the component is chosen. -/
def lookupAt (env : Env Version) (fuel : Nat) (component rRawUrl githubToken : String) :
    Run (Option ComponentResources × Option Error) :=
  match env.urlParse rRawUrl with
  | Except.error _ =>
    pure (none, some (Error.errorf "repository for %q is not a valid url" [Arg.s component]))
  | Except.ok rUrl =>
    if rUrl.Scheme = "https" ∧ rUrl.Host = "github.com" then do
      let (resources, err) ← lookupGitHubRepository env fuel rUrl.Path githubToken
      match err with
      | some e => pure (none, some e)
      | none => pure (some { resources := resources, apply := rUrl.Fragment }, none)
    else if rUrl.Scheme = "http" ∨ rUrl.Scheme = "https" then
      pure (none, some (Error.errorf "support for http/https repositories is not implemented yet" []))
    else if rUrl.Scheme = "" ∨ rUrl.Scheme = "file" then do
      let (resources, err) ← lookupLocalRepository env (env.filepathJoin rUrl.Host rUrl.Path)
      match err with
      | some e => pure (none, some e)
      | none => pure (some { resources := resources, apply := rUrl.Fragment }, none)
    else
      pure (none, some (Error.errorf "repository %q not supported" []))

/-- The function `Lookup` (lines 12 to 61); a Go map is a function to an option. -/
def Lookup (env : Env Version) (fuel : Nat) (component : String)
    (repositories : String → Option String) (githubToken : String) :
    Run (Option ComponentResources × Option Error) :=
  match repositories component with
  | some rRawUrl => lookupAt env fuel component rRawUrl githubToken
  | none =>
    match defaultRepositories.lookup component with
    | some rRawUrl => lookupAt env fuel component rRawUrl githubToken
    | none => pure (none, some (MissingRepository component))

end LookupSection

/-! ## Repository trees and directory trees -/

/-- A tree of a GitHub repository as the contents API presents it. A file has the
path it is listed under, its content in base64, the path its answer reports and
its decoded bytes. A directory has its path and its entries, in order. -/
inductive Tree where
  | file (path encoded reported : String) (bytes : Bytes)
  | dir (path : String) (entries : List Tree)

/-- The path a node is listed under. -/
def Tree.path : Tree → String
  | Tree.file p _ _ _ => p
  | Tree.dir p _ => p

/-- The directory entry the contents API lists for a node. -/
def Tree.entry (t : Tree) : RepositoryContent :=
  { Encoding := none, Content := none, Path := some t.path }

mutual
/-- The files below a node as resources, in the order of the entries. -/
def Tree.resources : Tree → List Resource
  | Tree.file _ _ reported bytes => [⟨reported, bytes⟩]
  | Tree.dir _ entries => Tree.resourcesList entries
/-- The files below a list of nodes. -/
def Tree.resourcesList : List Tree → List Resource
  | [] => []
  | t :: ts => t.resources ++ Tree.resourcesList ts
end

mutual
/-- The number of files below a node. -/
def Tree.fileCount : Tree → Nat
  | Tree.file _ _ _ _ => 1
  | Tree.dir _ entries => Tree.fileCountList entries
/-- The number of files below a list of nodes. -/
def Tree.fileCountList : List Tree → Nat
  | [] => 0
  | t :: ts => t.fileCount + Tree.fileCountList ts
end

mutual
/-- The number of levels of a tree. -/
def Tree.height : Tree → Nat
  | Tree.file _ _ _ _ => 1
  | Tree.dir _ entries => Tree.heightList entries + 1
/-- The greatest height in a list of nodes. -/
def Tree.heightList : List Tree → Nat
  | [] => 0
  | t :: ts => max t.height (Tree.heightList ts)
end

mutual
/-- The contents API, asked without a ref by the client of `r`, presents the tree:
a file path is answered with a base64 file whose content decodes to the bytes of
the file, a directory path with the entries of the directory. -/
def Serves {Version : Type} (env : Env Version) (r : githubRepository) : Tree → Prop
  | Tree.file path encoded reported bytes =>
    (∃ items, env.GetContents r.httpClient r.owner r.repo path none =
      Except.ok (some ⟨some "base64", some encoded, some reported⟩, items)) ∧
    env.DecodeString encoded = Except.ok bytes
  | Tree.dir path entries =>
    env.GetContents r.httpClient r.owner r.repo path none =
      Except.ok (none, entries.map Tree.entry) ∧
    ServesList env r entries
/-- Every node of the list is presented. -/
def ServesList {Version : Type} (env : Env Version) (r : githubRepository) : List Tree → Prop
  | [] => True
  | t :: ts => Serves env r t ∧ ServesList env r ts
end

/-- A local directory tree: a regular file with its path and content, or a
directory with its path and entries. -/
inductive FsNode where
  | file (path : String) (content : Bytes)
  | dir (path : String) (entries : List FsNode)

mutual
/-- The visits of `filepath.Walk` over a tree: a node, then its entries, in order. -/
def FsNode.visits : FsNode → List (String × Option FileInfo)
  | FsNode.file path _ => [(path, some ⟨false⟩)]
  | FsNode.dir path entries => (path, some ⟨true⟩) :: FsNode.visitsList entries
/-- The visits over a list of nodes. -/
def FsNode.visitsList : List FsNode → List (String × Option FileInfo)
  | [] => []
  | t :: ts => t.visits ++ FsNode.visitsList ts
end

mutual
/-- The regular files of a tree, path and content, in the order of the walk. -/
def FsNode.files : FsNode → List (String × Bytes)
  | FsNode.file path content => [(path, content)]
  | FsNode.dir _ entries => FsNode.filesList entries
/-- The regular files of a list of nodes. -/
def FsNode.filesList : List FsNode → List (String × Bytes)
  | [] => []
  | t :: ts => t.files ++ FsNode.filesList ts
end

/-- The extension of the path is `.yaml` or `.yml`. -/
def isYaml (path : String) : Bool := decide (Ext path = ".yaml" ∨ Ext path = ".yml")

/-- The directory tree `t` is what the file system shows below `root`, and every
regular file of it can be read. -/
def Readable {Version : Type} (env : Env Version) (root : String) (t : FsNode) : Prop :=
  env.Walk root = t.visits ∧ ∀ f ∈ t.files, env.ReadFile f.1 = Except.ok f.2

/-! ## An example world

A small world to run the functions in: stand-ins for the Go libraries (three
number versions, standard base64, the two URL shapes used) and one repository
`o/r` with releases, a branch, a tag and a tree, next to a local directory. -/

/-- A decimal number without sign. -/
def demoNumber : List Char → Option Nat
  | [] => none
  | cs => if cs.all Char.isDigit then some (cs.foldl (fun n c => 10 * n + (c.toNat - 48)) 0) else none

/-- Stand-in for `version.ParseSemantic`: `1.2.3` or `v1.2.3`. -/
def demoParseSemantic (s : String) : Option (Nat × Nat × Nat) :=
  let cs := match s.data with
    | 'v' :: rest => rest
    | other => other
  match (splitAux '.' cs []).map demoNumber with
  | [some a, some b, some c] => some (a, b, c)
  | _ => none

/-- Stand-in for `LessThan` of the version library: major, then minor, then patch. -/
def demoLessThan (a b : Nat × Nat × Nat) : Bool :=
  decide (a.1 < b.1 ∨ (a.1 = b.1 ∧ (a.2.1 < b.2.1 ∨ (a.2.1 = b.2.1 ∧ a.2.2 < b.2.2))))

/-- The value of a character of the standard base64 alphabet. -/
def demoSextet (c : Char) : Option Nat :=
  let n := c.toNat
  if 65 ≤ n ∧ n ≤ 90 then some (n - 65)
  else if 97 ≤ n ∧ n ≤ 122 then some (n - 71)
  else if 48 ≤ n ∧ n ≤ 57 then some (n + 4)
  else if n = 43 then some 62
  else if n = 47 then some 63
  else none

/-- Decoding of padded standard base64, four characters at a time. -/
def demoDecodeAux : List Char → Option Bytes
  | [] => some []
  | a :: b :: c :: d :: rest =>
    match demoSextet a, demoSextet b with
    | some x, some y =>
      if c = '=' ∧ d = '=' ∧ rest = [] then some [UInt8.ofNat (x * 4 + y / 16)]
      else
        match demoSextet c with
        | none => none
        | some z =>
          if d = '=' ∧ rest = [] then
            some [UInt8.ofNat (x * 4 + y / 16), UInt8.ofNat ((y % 16) * 16 + z / 4)]
          else
            match demoSextet d with
            | none => none
            | some w =>
              match demoDecodeAux rest with
              | none => none
              | some bytes =>
                some (UInt8.ofNat (x * 4 + y / 16) :: UInt8.ofNat ((y % 16) * 16 + z / 4) ::
                  UInt8.ofNat ((z % 4) * 64 + w) :: bytes)
    | _, _ => none
  | _ => none

/-- Stand-in for `b64.StdEncoding.DecodeString`. -/
def demoDecodeString (s : String) : Except Error Bytes :=
  match demoDecodeAux s.data with
  | some bytes => Except.ok bytes
  | none => Except.error (Error.outside "illegal base64 data")

/-- Stand-in for `url.Parse`: a GitHub URL or a local path, with a fragment. -/
def demoUrlParse (s : String) : Except Error URL :=
  match splitAux '#' s.data [] with
  | [body] =>
    match dropFront body "https://github.com".data with
    | some rest => Except.ok ⟨"https", "github.com", String.mk rest, ""⟩
    | none => Except.ok ⟨"", "", String.mk body, ""⟩
  | [body, fragment] =>
    match dropFront body "https://github.com".data with
    | some rest => Except.ok ⟨"https", "github.com", String.mk rest, String.mk fragment⟩
    | none => Except.ok ⟨"", "", String.mk body, String.mk fragment⟩
  | _ => Except.error (Error.outside "invalid URL")

/-- Stand-in for `filepath.Dir`: the path without its last element. -/
def demoDir (path : String) : String :=
  String.mk ((path.data.reverse.dropWhile (fun c => c != '/')).drop 1).reverse

/-- Forty characters, as a commit SHA has. -/
def demoSHA : String := "0123456789abcdef0123456789abcdef01234567"

/-- The releases of the example repository, in the order the API lists them. -/
def demoReleases : List RepositoryRelease :=
  [ ⟨some "v0.1.0", [⟨some 1, some "infra.yaml"⟩]⟩,
    ⟨some "nightly", []⟩,
    ⟨some "v0.2.0", [⟨some 7, some "infra.yaml"⟩]⟩,
    ⟨none, []⟩,
    ⟨some "v0.2.0", [⟨some 8, some "infra.yaml"⟩]⟩ ]

/-- The tree of the example repository: `a.yaml` and a subdirectory with `b.yaml`. -/
def demoTree : Tree :=
  Tree.dir "manifests"
    [ Tree.file "manifests/a.yaml" "YQ==" "manifests/a.yaml" [97],
      Tree.dir "manifests/sub" [Tree.file "manifests/sub/b.yaml" "Yg==" "manifests/sub/b.yaml" [98]] ]

/-- The contents of the example repository; `big.yaml` is reported without a
base64 encoding. -/
def demoGetContents (path : String) :
    Except Error (Option RepositoryContent × List RepositoryContent) :=
  if path = "manifests" then
    Except.ok (none, [⟨none, none, some "manifests/a.yaml"⟩, ⟨none, none, some "manifests/sub"⟩])
  else if path = "manifests/sub" then
    Except.ok (none, [⟨none, none, some "manifests/sub/b.yaml"⟩])
  else if path = "manifests/a.yaml" then
    Except.ok (some ⟨some "base64", some "YQ==", some "manifests/a.yaml"⟩, [])
  else if path = "manifests/sub/b.yaml" then
    Except.ok (some ⟨some "base64", some "Yg==", some "manifests/sub/b.yaml"⟩, [])
  else if path = "big.yaml" then
    Except.ok (some ⟨some "none", some "", some "big.yaml"⟩, [])
  else Except.error (Error.outside "404 Not Found")

/-- The local directory of the example world. -/
def demoDirTree : FsNode :=
  FsNode.dir "/tmp/capi"
    [ FsNode.file "/tmp/capi/x.yaml" [120],
      FsNode.file "/tmp/capi/y.yml" [121],
      FsNode.file "/tmp/capi/z.txt" [122] ]

/-- The example world. -/
def demoEnv : Env (Nat × Nat × Nat) where
  ListReleases := fun _ _ _ => Except.ok demoReleases
  GetReleaseByTag := fun _ _ _ tag =>
    match demoReleases.find? (fun rel => decide (rel.TagName = some tag)) with
    | some rel => Except.ok (some rel)
    | none => Except.error (Error.outside "404 Not Found")
  DownloadReleaseAsset := fun _ _ _ id =>
    if id = 7 then Except.ok (some (Except.ok [105]), "") else Except.ok (none, "https://cdn.example/infra.yaml")
  ListBranches := fun _ _ _ => Except.ok [⟨some "main", some ⟨some demoSHA⟩⟩]
  ListTags := fun _ _ _ => Except.ok [⟨some "v0.2.0", some ⟨some demoSHA⟩⟩]
  GetContents := fun _ _ _ path _ => demoGetContents path
  httpGet := fun _ => Except.ok (Except.ok [105])
  Walk := fun root => if root = "/tmp/capi" then demoDirTree.visits else [(root, none)]
  ReadFile := fun path =>
    match demoDirTree.files.lookup path with
    | some content => Except.ok content
    | none => Except.error (Error.outside "no such file")
  ParseSemantic := demoParseSemantic
  LessThan := demoLessThan
  DecodeString := demoDecodeString
  urlParse := demoUrlParse
  filepathDir := demoDir
  filepathJoin := fun host path => host ++ path

/-- The example world when listing the releases hits the rate limit. -/
def demoEnvRateLimited : Env (Nat × Nat × Nat) :=
  { demoEnv with ListReleases := fun _ _ _ => Except.error Error.rateLimit }

/-- The example world when the repository has no release with a version tag. -/
def demoEnvNoVersion : Env (Nat × Nat × Nat) :=
  { demoEnv with ListReleases := fun _ _ _ => Except.ok [⟨some "nightly", []⟩, ⟨none, []⟩] }

/-- The example world when listing the branches hits the rate limit. -/
def demoEnvBranchesLimited : Env (Nat × Nat × Nat) :=
  { demoEnv with ListBranches := fun _ _ _ => Except.error Error.rateLimit }

/-! ## The version library

`getLatestRelease` calls `ParseSemantic` and `LessThan` of the package
`k8s.io/apimachinery/pkg/util/version`, which is no part of this repository. The
definitions below follow that package: a semantic version is three numbers, an
optional pre-release part and optional build metadata; `LessThan` is
`compareInternal` giving `-1`. In `compareInternal` two pre-release identifiers are
compared as numbers when both are numbers, and as strings otherwise. -/

namespace version

/-- The type `Version` of the version library. -/
structure Version where
  components : List Nat
  semver : Bool
  preRelease : String
  buildMetadata : String
deriving DecidableEq, Repr

/-- Go `strconv.ParseUint(s, 10, 0)`: a non-empty run of decimal digits below
`2 ^ 64`. -/
def ParseUint (s : List Char) : Option Nat :=
  match s with
  | [] => none
  | _ =>
    if s.all Char.isDigit then
      if s.foldl (fun n c => 10 * n + (c.toNat - 48)) 0 < 18446744073709551616 then
        some (s.foldl (fun n c => 10 * n + (c.toNat - 48)) 0)
      else none
    else none

/-- White space of a regular expression. -/
def isSpace (c : Char) : Bool := c = ' ' || (9 ≤ c.toNat && c.toNat ≤ 13)

/-- A character of an identifier: a digit, a letter or a hyphen. -/
def isIdentChar (c : Char) : Bool := c.isAlphanum || c = '-'

/-- The repetition `(\.p+)*` of a regular expression, taken greedily; `acc` is what
was matched so far. -/
def moreDotted (p : Char → Bool) : Nat → List Char → List Char → List Char × List Char
  | 0, acc, rest => (acc, rest)
  | fuel + 1, acc, rest =>
    match rest with
    | '.' :: rest1 =>
      if (rest1.span p).1 = [] then (acc, rest)
      else moreDotted p fuel (acc ++ '.' :: (rest1.span p).1) (rest1.span p).2
    | _ => (acc, rest)

/-- The expression `p+(\.p+)*` at the front of a string: the match and the rest. -/
def takeDotted (p : Char → Bool) (cs : List Char) : Option (List Char × List Char) :=
  if (cs.span p).1 = [] then none
  else some (moreDotted p cs.length (cs.span p).1 (cs.span p).2)

/-- The expression `extraMatchRE`: an optional pre-release part after a hyphen, an
optional build part after a plus, white space up to the end. -/
def parseExtra (extra : List Char) : Option (List Char × List Char) :=
  let pre : List Char × List Char :=
    match extra with
    | '-' :: cs =>
      match takeDotted isIdentChar cs with
      | some m => m
      | none => ([], extra)
    | _ => ([], extra)
  let build : List Char × List Char :=
    match pre.2 with
    | '+' :: cs =>
      match takeDotted isIdentChar cs with
      | some m => m
      | none => ([], pre.2)
    | _ => ([], pre.2)
  if build.2.all isSpace then some (pre.1, build.1) else none

/-- A component with a zero in front that is not zero itself. -/
def zeroPrefixed (comp : List Char) : Bool :=
  match comp with
  | '0' :: _ :: _ => true
  | _ => false

/-- Every component as a number, when every component is one. -/
def parseAll : List (List Char) → Option (List Nat)
  | [] => some []
  | c :: cs =>
    match ParseUint c, parseAll cs with
    | some n, some ns => some (n :: ns)
    | _, _ => none

/-- The function `ParseSemantic` of the version library: `parse` with the semver
flag. The string is white space, an optional `v`, the numbers and the extra part,
which holds no line break. -/
def ParseSemantic (str : String) : Option Version :=
  let cs := str.data.dropWhile isSpace
  let cs := match cs with
    | 'v' :: rest => rest
    | other => other
  match takeDotted Char.isDigit cs with
  | none => none
  | some (numbers, extra) =>
    if extra.any (fun c => c = '\n') then none
    else if (splitAux '.' numbers []).length ≠ 3 then none
    else if (splitAux '.' numbers []).any zeroPrefixed then none
    else
      match parseAll (splitAux '.' numbers []) with
      | none => none
      | some components =>
        match extra with
        | [] => some ⟨components, true, "", ""⟩
        | _ =>
          match parseExtra extra with
          | none => none
          | some (preRelease, buildMetadata) =>
            if (splitAux '.' preRelease []).any
                (fun comp => (ParseUint comp).isSome && zeroPrefixed comp) then none
            else some ⟨components, true, String.mk preRelease, String.mk buildMetadata⟩

/-- Go `a < b` on strings, character by character. -/
def strLess : List Char → List Char → Bool
  | [], [] => false
  | [], _ :: _ => true
  | _ :: _, [] => false
  | a :: as, b :: bs => if a.toNat < b.toNat then true else if b.toNat < a.toNat then false else strLess as bs

/-- The first part of `compareInternal`: the numbers, and the surplus of the longer
list when it is not all zeros; `0` when the numbers decide nothing. -/
def compareComponents : List Nat → List Nat → Int
  | [], [] => 0
  | v :: vs, [] => if (v :: vs).all (fun n => n = 0) then 0 else 1
  | [], o :: os => if (o :: os).all (fun n => n = 0) then 0 else -1
  | v :: vs, o :: os => if o < v then 1 else if v < o then -1 else compareComponents vs os

/-- The last part of `compareInternal`: the identifiers of the two pre-release
parts, as numbers when both are numbers, as strings otherwise, then the counts. -/
def comparePreRelease : List (List Char) → List (List Char) → Int
  | [], [] => 0
  | _ :: _, [] => 1
  | [], _ :: _ => -1
  | v :: vs, o :: os =>
    match ParseUint v, ParseUint o with
    | some vNum, some oNum =>
      if oNum < vNum then 1 else if vNum < oNum then -1 else comparePreRelease vs os
    | _, _ =>
      if strLess o v then 1 else if strLess v o then -1 else comparePreRelease vs os

/-- The method `compareInternal` of the version library. -/
def compareInternal (v other : Version) : Int :=
  if compareComponents v.components other.components ≠ 0 then
    compareComponents v.components other.components
  else if !v.semver || !other.semver then 0
  else if v.preRelease = "" ∧ other.preRelease ≠ "" then 1
  else if v.preRelease ≠ "" ∧ other.preRelease = "" then -1
  else if v.preRelease = other.preRelease then 0
  else comparePreRelease (splitAux '.' v.preRelease.data []) (splitAux '.' other.preRelease.data [])

/-- The method `LessThan` of the version library. -/
def LessThan (v other : Version) : Bool := decide (compareInternal v other = -1)

end version

/-- The example world with the version library and with `releases` as the
releases of the repository. -/
def libEnv (releases : List RepositoryRelease) : Env version.Version where
  ListReleases := fun _ _ _ => Except.ok releases
  GetReleaseByTag := demoEnv.GetReleaseByTag
  DownloadReleaseAsset := demoEnv.DownloadReleaseAsset
  ListBranches := demoEnv.ListBranches
  ListTags := demoEnv.ListTags
  GetContents := demoEnv.GetContents
  httpGet := demoEnv.httpGet
  Walk := demoEnv.Walk
  ReadFile := demoEnv.ReadFile
  ParseSemantic := version.ParseSemantic
  LessThan := version.LessThan
  DecodeString := demoEnv.DecodeString
  urlParse := demoEnv.urlParse
  filepathDir := demoEnv.filepathDir
  filepathJoin := demoEnv.filepathJoin

/-- Releases with pre-release and build parts: `v0.2.0` comes twice, the second
time with build metadata, which the order passes over. -/
def taggedReleases : List RepositoryRelease :=
  [ ⟨some "v0.1.0", []⟩,
    ⟨some "nightly", []⟩,
    ⟨some "v0.2.0-rc.1", []⟩,
    ⟨none, []⟩,
    ⟨some "v0.2.0", [⟨some 7, some "infra.yaml"⟩]⟩,
    ⟨some "v0.2.0+build.5", [⟨some 8, some "infra.yaml"⟩]⟩ ]

/-- Releases whose pre-release identifiers mix numbers and letters. -/
def mixedReleases : List RepositoryRelease :=
  [ ⟨some "v1.0.0-2", []⟩, ⟨some "v1.0.0-10", []⟩, ⟨some "v1.0.0-1a", []⟩ ]

/-- The versions of the releases whose tag parses, in the order of the list. -/
def listedVersions {Version : Type} (env : Env Version) (l : List RepositoryRelease) :
    List Version :=
  l.filterMap (fun x => x.TagName.bind env.ParseSemantic)

/-! ## Notions the statements use -/

/-- The error is none of the two errors of the path validation. -/
def Benign (e : Error) : Prop := ∀ p, ¬ IsInvalidRepositoryPath p e

/-- The paths the callback of `getResources` records over a sequence of visits:
those of the visits that are no directory and have a YAML extension. -/
def yamlPaths : List (String × Option FileInfo) → List String
  | [] => []
  | (path, info) :: rest =>
    match info with
    | some ⟨false⟩ => if isYaml path then path :: yamlPaths rest else yamlPaths rest
    | _ => yamlPaths rest

/-- The resource `getResources` makes of a file of the repository at `root`. -/
def localResource {Version : Type} (env : Env Version) (root : String) (f : String × Bytes) : Resource :=
  ⟨TrimPrefix f.1 (env.filepathDir root), f.2⟩

/-- The state of the loop of `getLatestRelease` after the releases `l`: nothing
is selected and no release of `l` has a version tag, or the release at some index
`i` is selected, with its version `v`, no version of `l` is greater than `v`, and
`i` is the first index of a version that is not less than `v`. -/
def LatestInv {Version : Type} (env : Env Version) (l : List RepositoryRelease)
    (st : Option RepositoryRelease × Option Version) : Prop :=
  (st = (none, none) ∧ ∀ x ∈ l, ∀ tag, x.TagName = some tag → env.ParseSemantic tag = none) ∨
  (∃ (i : Nat) (rel : RepositoryRelease) (tag : String) (v : Version),
    l[i]? = some rel ∧ rel.TagName = some tag ∧ env.ParseSemantic tag = some v ∧
    st = (some rel, some v) ∧
    ∀ (j : Nat) (x : RepositoryRelease) (t : String) (w : Version),
      l[j]? = some x → x.TagName = some t → env.ParseSemantic t = some w →
      env.LessThan v w = false ∧ (env.LessThan w v = false → i ≤ j))

/-- A call `downloadResourcesFromTree` may make: a client is made, or the contents
are asked with nil options, so without a ref. -/
def ContentsWithoutRef : Call → Prop
  | Call.oauth2NewClient _ => True
  | Call.NewClient _ => True
  | Call.GetContents _ _ _ ref => ref = none
  | _ => False

/-! ## Runs -/

section RunLemmas

variable {α β : Type}

@[simp]
theorem bind_eq (x : Run α) (f : α → Run β) : x >>= f = Run.bind x f := rfl

@[simp]
theorem pure_eq (a : α) : (pure a : Run α) = ⟨[], Outcome.ret a⟩ := rfl

@[simp]
theorem call_bind (c : Call) (f : Unit → Run β) :
    Run.bind (call c) f = ⟨c :: (f ()).calls, (f ()).out⟩ := rfl

@[simp]
theorem crash_bind (f : α → Run β) : Run.bind (crash : Run α) f = ⟨[], Outcome.crash⟩ := rfl

@[simp]
theorem ret_bind (a : α) (f : α → Run β) :
    Run.bind ⟨[], Outcome.ret a⟩ f = f a := by
  simp [Run.bind]

theorem bind_out_ret {x : Run α} {f : α → Run β} {b : β}
    (h : (Run.bind x f).out = Outcome.ret b) :
    ∃ a, x.out = Outcome.ret a ∧ (f a).out = Outcome.ret b := by
  unfold Run.bind at h
  cases hx : x.out with
  | ret a => rw [hx] at h; exact ⟨a, rfl, h⟩
  | crash => rw [hx] at h; cases h
  | outOfFuel => rw [hx] at h; cases h

theorem bind_out_of_ret {x : Run α} {f : α → Run β} {a : α}
    (h : x.out = Outcome.ret a) : (Run.bind x f).out = (f a).out := by
  unfold Run.bind
  rw [h]

theorem bind_calls_of_ret {x : Run α} {f : α → Run β} {a : α}
    (h : x.out = Outcome.ret a) : (Run.bind x f).calls = x.calls ++ (f a).calls := by
  unfold Run.bind
  rw [h]

end RunLemmas

/-! ## The dropped errors of `lookupGitHubRepository` -/

/-- C2, evaluated: when listing the releases hits the rate limit, `getLatestRelease`
returns `RateLimitExceeded`, and `lookupGitHubRepository`, which drops that error,
panics on the nil release; when listing the branches hits the rate limit, `getSHA`
returns `RateLimitExceeded`, and `lookupGitHubRepository` goes on with an empty SHA
and returns resources and a nil error. -/
theorem rate_limit_dropped :
    (getLatestRelease demoEnvRateLimited ⟨none, "o", "r"⟩).out
        = Outcome.ret (none, some RateLimitExceeded) ∧
    lookupGitHubRepository demoEnvRateLimited 5 "/o/r/releases/latest/infra.yaml" ""
        = ⟨[Call.NewClient none, Call.ListReleases "o" "r"], Outcome.crash⟩ ∧
    (getSHA demoEnvBranchesLimited ⟨none, "o", "r"⟩ "main").out
        = Outcome.ret ("", some RateLimitExceeded) ∧
    (lookupGitHubRepository demoEnvBranchesLimited 5 "/o/r/tree/main/manifests" "").out
        = Outcome.ret ([⟨"manifests/a.yaml", [97]⟩, ⟨"manifests/sub/b.yaml", [98]⟩], none) := by
  decide

/-- C3, evaluated: for a ref of 40 characters no branch and no tag is listed, but
every contents query is made with nil options, so without the ref: the SHA is
handed down and never sent. -/
theorem sha_not_sent :
    (lookupGitHubRepository demoEnv 5 "/o/r/tree/0123456789abcdef0123456789abcdef01234567/manifests" "").calls
      = [Call.NewClient none, Call.GetContents "o" "r" "manifests" none,
         Call.NewClient none, Call.GetContents "o" "r" "manifests/a.yaml" none,
         Call.NewClient none, Call.GetContents "o" "r" "manifests/sub" none,
         Call.NewClient none, Call.GetContents "o" "r" "manifests/sub/b.yaml" none] := by
  decide

/-- C4, evaluated: for a ref that names no branch and no tag, `getSHA` returns the
empty string and a nil error, and `lookupGitHubRepository` returns resources and a
nil error. -/
theorem ref_not_found_is_nil :
    (getSHA demoEnv ⟨none, "o", "r"⟩ "nosuch").out = Outcome.ret ("", none) ∧
    (lookupGitHubRepository demoEnv 5 "/o/r/tree/nosuch/manifests" "").out
        = Outcome.ret ([⟨"manifests/a.yaml", [97]⟩, ⟨"manifests/sub/b.yaml", [98]⟩], none) := by
  decide

/-- C5, evaluated: for a file whose encoding is not base64,
`downloadResourcesFromTree` returns no resource and a nil error. -/
theorem invalid_encoding_is_nil :
    (downloadResourcesFromTree demoEnv ⟨none, "o", "r"⟩ 5 demoSHA "big.yaml").out
      = Outcome.ret ([], none) := by
  decide

/-- C6, evaluated: when no release has a version tag, `getLatestRelease` returns
`NoLatestRelease`, and `lookupGitHubRepository`, which drops that error, panics on
the nil release. -/
theorem no_latest_release_panics :
    (getLatestRelease demoEnvNoVersion ⟨none, "o", "r"⟩).out
        = Outcome.ret (none, some NoLatestRelease) ∧
    lookupGitHubRepository demoEnvNoVersion 5 "/o/r/releases/latest/infra.yaml" ""
        = ⟨[Call.NewClient none, Call.ListReleases "o" "r"], Outcome.crash⟩ := by
  decide

/-! ## The errors of the path validation come from nowhere else -/

section BenignLemmas

variable {Version : Type}

theorem benign_wrapf (c : Error) (f : String) (a : List Arg) : Benign (Error.wrapf c f a) := by
  intro p h
  rcases h with ⟨n, h⟩ | h <;> cases h

theorem benign_rateLimitExceeded : Benign RateLimitExceeded := by
  intro p h
  rcases h with ⟨n, h⟩ | h
  · simp [RateLimitExceeded] at h
  · simp [RateLimitExceeded] at h

theorem benign_handleGithubErr {err : Error} {m : String} {a : List String} {e : Error}
    (h : handleGithubErr (some err) m a = some e) : Benign e := by
  cases err <;> simp [handleGithubErr, Wrapf] at h <;> subst h
  · exact benign_rateLimitExceeded
  all_goals exact benign_wrapf _ _ _

theorem benign_Wrapf {err : Option Error} {m : String} {a : List Arg} {e : Error}
    (h : Wrapf err m a = some e) : Benign e := by
  cases err <;> simp [Wrapf] at h
  subst h
  exact benign_wrapf _ _ _

theorem benign_assetMissing (tag assetName : String) :
    Benign (Error.errorf "the %q release does not contain the asset %q" [Arg.s tag, Arg.s assetName]) := by
  intro p h
  rcases h with ⟨n, h⟩ | h
  · simp at h
  · simp at h

theorem derefTagName_out {release : RepositoryRelease} {β : Type} {f : String → Run β} {b : β}
    (h : (Run.bind (derefTagName release) f).out = Outcome.ret b) :
    ∃ tag, release.TagName = some tag ∧ (f tag).out = Outcome.ret b := by
  obtain ⟨a, ha, hb⟩ := bind_out_ret h
  unfold derefTagName at ha
  cases ht : release.TagName with
  | none => rw [ht] at ha; cases ha
  | some tag =>
    rw [ht] at ha
    simp at ha
    subst ha
    exact ⟨tag, rfl, hb⟩

theorem benign_downloadResourceFromReleaseAssets (env : Env Version) (r : githubRepository)
    (release : Option RepositoryRelease) (assetName : String) (rs : List Resource) (e : Error)
    (h : (downloadResourceFromReleaseAssets env r release assetName).out = Outcome.ret (rs, some e)) :
    Benign e := by
  unfold downloadResourceFromReleaseAssets at h
  simp only [bind_eq, call_bind] at h
  cases release with
  | none => simp [crash] at h
  | some release =>
    simp only at h
    split at h
    · obtain ⟨tag, -, h⟩ := derefTagName_out h
      simp at h
      rw [← h.2]
      exact benign_assetMissing _ _
    · simp only [bind_eq, call_bind] at h
      split at h
      · obtain ⟨tag, -, h⟩ := derefTagName_out h
        simp at h
        exact benign_handleGithubErr h.2
      · split at h
        · obtain ⟨tag, -, h⟩ := derefTagName_out h
          simp at h
          exact benign_Wrapf h.2
        · simp at h
      · simp only [bind_eq, call_bind] at h
        split at h
        · obtain ⟨tag, -, h⟩ := derefTagName_out h
          simp at h
          exact benign_Wrapf h.2
        · obtain ⟨tag, -, h⟩ := derefTagName_out h
          simp at h
          exact benign_Wrapf h.2
        · simp at h

theorem benign_downloadItems (recurse : String → Run (List Resource × Option Error))
    (hrec : ∀ p rs e, (recurse p).out = Outcome.ret (rs, some e) → Benign e)
    (items : List RepositoryContent) :
    ∀ (acc rs : List Resource) (e : Error),
      (downloadItems recurse items acc).out = Outcome.ret (rs, some e) → Benign e := by
  induction items with
  | nil =>
    intro acc rs e h
    simp [downloadItems] at h
  | cons item rest ih =>
    intro acc rs e h
    unfold downloadItems at h
    cases hp : item.Path with
    | none => rw [hp] at h; simp [crash] at h
    | some itemPath =>
      rw [hp] at h
      simp only [bind_eq] at h
      obtain ⟨⟨itemResources, err⟩, ha, hb⟩ := bind_out_ret h
      cases err with
      | some e1 =>
        simp at hb
        rw [← hb.2]
        exact hrec _ _ _ ha
      | none => exact ih _ _ _ hb

theorem benign_downloadResourcesFromTree (env : Env Version) (r : githubRepository) (fuel : Nat) :
    ∀ (SHA path : String) (rs : List Resource) (e : Error),
      (downloadResourcesFromTree env r fuel SHA path).out = Outcome.ret (rs, some e) → Benign e := by
  induction fuel with
  | zero =>
    intro SHA path rs e h
    simp [downloadResourcesFromTree] at h
  | succ fuel ih =>
    intro SHA path rs e h
    unfold downloadResourcesFromTree at h
    simp only [bind_eq, call_bind] at h
    split at h
    · simp at h
      exact benign_handleGithubErr h.2
    · split at h
      · simp [Wrapf] at h
      · split at h
        · simp [crash] at h
        · split at h
          · simp at h
            exact benign_Wrapf h.2
          · split at h
            · simp [crash] at h
            · simp at h
    · exact benign_downloadItems _ (fun p rs e hp => ih SHA p rs e hp) _ _ _ _ h

end BenignLemmas

/-! ## Path validation -/

/-- C10: `lookupGitHubRepository` fails with one of the two errors of the path
validation exactly when the path, without one leading slash and split at the
slashes, has fewer than 5 segments or a third segment that is neither `releases`
nor `tree`; and it fails so without a client and without a call to the outside. -/
theorem lookupGitHubRepository_invalid_iff {Version : Type} (env : Env Version) (fuel : Nat)
    (path token : String) :
    ((∃ rs e, (lookupGitHubRepository env fuel path token).out = Outcome.ret (rs, some e) ∧
        IsInvalidRepositoryPath path e) ↔
      ((Split (TrimPrefix path "/") '/').length < 5 ∨
        ((Split (TrimPrefix path "/") '/')[2]? ≠ some "releases" ∧
         (Split (TrimPrefix path "/") '/')[2]? ≠ some "tree"))) ∧
    (((Split (TrimPrefix path "/") '/').length < 5 ∨
        ((Split (TrimPrefix path "/") '/')[2]? ≠ some "releases" ∧
         (Split (TrimPrefix path "/") '/')[2]? ≠ some "tree")) →
      ∃ e, lookupGitHubRepository env fuel path token = ⟨[], Outcome.ret ([], some e)⟩ ∧
        IsInvalidRepositoryPath path e) := by
  have key : ∀ t : List String, ¬ t.length < 5 →
      ((t.getD 2 "" = "releases" ∨ t.getD 2 "" = "tree") ↔
        ¬ (t[2]? ≠ some "releases" ∧ t[2]? ≠ some "tree")) := by
    intro t ht
    have h2 : 2 < t.length := by omega
    simp [List.getD, List.getElem?_eq_getElem h2]
    tauto
  have fwd : ((Split (TrimPrefix path "/") '/').length < 5 ∨
        ((Split (TrimPrefix path "/") '/')[2]? ≠ some "releases" ∧
         (Split (TrimPrefix path "/") '/')[2]? ≠ some "tree")) →
      ∃ e, lookupGitHubRepository env fuel path token = ⟨[], Outcome.ret ([], some e)⟩ ∧
        IsInvalidRepositoryPath path e := by
    intro hc
    unfold lookupGitHubRepository
    simp only
    by_cases hl : (Split (TrimPrefix path "/") '/').length < 5
    · rw [if_pos hl]
      exact ⟨_, rfl, Or.inl ⟨_, rfl⟩⟩
    · rw [if_neg hl]
      have hn : ¬ ((Split (TrimPrefix path "/") '/').getD 2 "" = "releases" ∨
          (Split (TrimPrefix path "/") '/').getD 2 "" = "tree") := by
        rw [key _ hl]
        rcases hc with hc | hc
        · exact absurd hc hl
        · exact not_not.mpr hc
      rw [if_pos hn]
      exact ⟨_, rfl, Or.inr rfl⟩
  refine ⟨⟨?_, ?_⟩, fwd⟩
  · rintro ⟨rs, e, hout, hinv⟩
    by_contra hc
    rw [not_or] at hc
    obtain ⟨hl, h3⟩ := hc
    have hv := (key _ hl).mpr h3
    unfold lookupGitHubRepository at hout
    simp only [if_neg hl, not_not.mpr hv, if_false, bind_eq] at hout
    obtain ⟨r, -, hout⟩ := bind_out_ret hout
    split at hout
    · obtain ⟨⟨release, err⟩, -, hout⟩ := bind_out_ret hout
      cases release with
      | none => simp [crash] at hout
      | some rel =>
        simp only at hout
        obtain ⟨tag, -, hout⟩ := derefTagName_out hout
        exact benign_downloadResourceFromReleaseAssets _ _ _ _ _ _ hout path hinv
    · obtain ⟨⟨sha, err⟩, -, hout⟩ := bind_out_ret hout
      exact benign_downloadResourcesFromTree _ _ _ _ _ _ _ hout path hinv
  · intro hc
    obtain ⟨e, he, hinv⟩ := fwd hc
    exact ⟨[], e, by rw [he], hinv⟩

/-- C10 at two paths: four segments, and a third segment `blob`. -/
theorem lookupGitHubRepository_invalid_iff_witness :
    (∃ e, lookupGitHubRepository demoEnv 5 "/o/r/releases/latest" "" = ⟨[], Outcome.ret ([], some e)⟩ ∧
        IsInvalidRepositoryPath "/o/r/releases/latest" e) ∧
    (∃ e, lookupGitHubRepository demoEnv 5 "/o/r/blob/latest/x" "" = ⟨[], Outcome.ret ([], some e)⟩ ∧
        IsInvalidRepositoryPath "/o/r/blob/latest/x" e) :=
  ⟨(lookupGitHubRepository_invalid_iff demoEnv 5 "/o/r/releases/latest" "").2 (Or.inl (by decide)),
   (lookupGitHubRepository_invalid_iff demoEnv 5 "/o/r/blob/latest/x" "").2 (Or.inr (by decide))⟩

/-! ## The location of a component -/

/-- C8: `Lookup` runs on the override of the component when there is one, also when
the default registry has the component; otherwise on the entry of the default
registry; and with neither it fails with `MissingRepository`, in every world and
without a call to the outside. -/
theorem Lookup_location {Version : Type} (env : Env Version) (fuel : Nat) (component : String)
    (repositories : String → Option String) (githubToken : String) :
    (∀ u, repositories component = some u →
      Lookup env fuel component repositories githubToken
        = lookupAt env fuel component u githubToken) ∧
    (repositories component = none → ∀ u, defaultRepositories.lookup component = some u →
      Lookup env fuel component repositories githubToken
        = lookupAt env fuel component u githubToken) ∧
    (repositories component = none → defaultRepositories.lookup component = none →
      Lookup env fuel component repositories githubToken
        = ⟨[], Outcome.ret (none, some (MissingRepository component))⟩) := by
  refine ⟨?_, ?_, ?_⟩
  · intro u hu
    simp [Lookup, hu]
  · intro hn u hu
    simp [Lookup, hn, hu]
  · intro hn hd
    simp [Lookup, hn, hd]

/-- C8 at three components: `CAPI` with an override, `aws` from the default
registry, `gcp` with neither. -/
theorem Lookup_location_witness :
    Lookup demoEnv 5 "CAPI" (fun c => if c = "CAPI" then some "/tmp/capi" else none) ""
      = lookupAt demoEnv 5 "CAPI" "/tmp/capi" "" ∧
    Lookup demoEnv 5 "aws" (fun c => if c = "CAPI" then some "/tmp/capi" else none) ""
      = lookupAt demoEnv 5 "aws"
          "https://github.com/kubernetes-sigs/cluster-api-provider-aws/releases/latest/infrastructure-components.yaml" "" ∧
    Lookup demoEnv 5 "gcp" (fun c => if c = "CAPI" then some "/tmp/capi" else none) ""
      = ⟨[], Outcome.ret (none, some (MissingRepository "gcp"))⟩ :=
  ⟨(Lookup_location demoEnv 5 "CAPI" _ "").1 _ (by decide),
   (Lookup_location demoEnv 5 "aws" _ "").2.1 (by decide) _ (by decide),
   (Lookup_location demoEnv 5 "gcp" _ "").2.2 (by decide) (by decide)⟩

/-! ## The local repository -/

section LocalLemmas

variable {Version : Type}

theorem walkFn_eq (vs : List (String × Option FileInfo)) :
    (∀ v ∈ vs, v.2 ≠ none) →
    ∀ acc, walkFn vs acc = ⟨[], Outcome.ret (acc ++ yamlPaths vs, none)⟩ := by
  induction vs with
  | nil => intro _ acc; simp [walkFn, yamlPaths]
  | cons v rest ih =>
    intro hv acc
    obtain ⟨path, info⟩ := v
    have hrest : ∀ v ∈ rest, v.2 ≠ none := fun v hm => hv v (List.mem_cons_of_mem _ hm)
    cases info with
    | none => exact absurd rfl (hv (path, none) (List.mem_cons_self _ _))
    | some info =>
      obtain ⟨isDir⟩ := info
      cases isDir with
      | true => simp [walkFn, yamlPaths, ih hrest]
      | false =>
        by_cases hy : Ext path = ".yaml" ∨ Ext path = ".yml"
        · simp [walkFn, yamlPaths, isYaml, hy, ih hrest]
        · simp [walkFn, yamlPaths, isYaml, hy, ih hrest]

theorem yamlPaths_append (xs ys : List (String × Option FileInfo)) :
    yamlPaths (xs ++ ys) = yamlPaths xs ++ yamlPaths ys := by
  induction xs with
  | nil => rfl
  | cons v rest ih =>
    obtain ⟨path, info⟩ := v
    cases info with
    | none => simp [yamlPaths, ih]
    | some info =>
      obtain ⟨isDir⟩ := info
      cases isDir with
      | true => simp [yamlPaths, ih]
      | false =>
        by_cases hy : isYaml path = true
        · simp [yamlPaths, hy, ih]
        · simp [yamlPaths, hy, ih]

mutual
theorem visits_spec : ∀ t : FsNode,
    (∀ v ∈ t.visits, v.2 ≠ none) ∧
    yamlPaths t.visits = (t.files.filter (fun f => isYaml f.1)).map (fun f => f.1)
  | FsNode.file path content => by
    by_cases hy : isYaml path = true
    · simp [FsNode.visits, FsNode.files, yamlPaths, hy]
    · simp [FsNode.visits, FsNode.files, yamlPaths, hy]
  | FsNode.dir path entries => by
    have h := visitsList_spec entries
    refine ⟨?_, ?_⟩
    · intro v hv
      simp only [FsNode.visits, List.mem_cons] at hv
      rcases hv with rfl | hv
      · simp
      · exact h.1 v hv
    · simp only [FsNode.visits, FsNode.files, yamlPaths]
      exact h.2
theorem visitsList_spec : ∀ ts : List FsNode,
    (∀ v ∈ FsNode.visitsList ts, v.2 ≠ none) ∧
    yamlPaths (FsNode.visitsList ts)
      = ((FsNode.filesList ts).filter (fun f => isYaml f.1)).map (fun f => f.1)
  | [] => by simp [FsNode.visitsList, FsNode.filesList, yamlPaths]
  | t :: ts => by
    have h1 := visits_spec t
    have h2 := visitsList_spec ts
    refine ⟨?_, ?_⟩
    · intro v hv
      simp only [FsNode.visitsList, List.mem_append] at hv
      rcases hv with hv | hv
      · exact h1.1 v hv
      · exact h2.1 v hv
    · simp only [FsNode.visitsList, FsNode.filesList, yamlPaths_append, List.filter_append,
        List.map_append, h1.2, h2.2]
end

theorem readResources_eq (env : Env Version) (r : localRepository) (fs : List (String × Bytes)) :
    (∀ f ∈ fs, env.ReadFile f.1 = Except.ok f.2) →
    ∀ acc, (readResources env r (fs.map (fun f => f.1)) acc).out
      = Outcome.ret (acc ++ fs.map (localResource env r.path), none) := by
  induction fs with
  | nil => intro _ acc; simp [readResources]
  | cons f rest ih =>
    intro hf acc
    have h1 := hf f (List.mem_cons_self _ _)
    have hrest : ∀ g ∈ rest, env.ReadFile g.1 = Except.ok g.2 :=
      fun g hg => hf g (List.mem_cons_of_mem _ hg)
    simp only [List.map_cons, readResources, bind_eq, call_bind, h1]
    rw [ih hrest]
    simp [localResource]

end LocalLemmas

/-- C9: over a readable directory tree `getResources` returns, in the order of the
walk, one resource for each regular file whose extension is `.yaml` or `.yml`, with
the content of that file, and nothing else. -/
theorem getResources_yaml {Version : Type} (env : Env Version) (root : String) (t : FsNode)
    (h : Readable env root t) :
    (getResources env ⟨root⟩).out
      = Outcome.ret ((t.files.filter (fun f => isYaml f.1)).map (localResource env root), none) := by
  obtain ⟨hw, hr⟩ := h
  unfold getResources
  simp only [bind_eq, call_bind, hw]
  rw [walkFn_eq _ (visits_spec t).1 []]
  simp only [ret_bind, List.nil_append, (visits_spec t).2]
  have := readResources_eq env ⟨root⟩ (t.files.filter (fun f => isYaml f.1))
    (fun f hf => hr f (List.mem_of_mem_filter hf)) []
  simpa using this

/-- C9 at the example directory: of `x.yaml`, `y.yml` and `z.txt` the first two are
returned. -/
theorem getResources_yaml_witness :
    Readable demoEnv "/tmp/capi" demoDirTree ∧
    (getResources demoEnv ⟨"/tmp/capi"⟩).out
      = Outcome.ret ([⟨"/capi/x.yaml", [120]⟩, ⟨"/capi/y.yml", [121]⟩], none) :=
  ⟨⟨rfl, by decide⟩, getResources_yaml demoEnv "/tmp/capi" demoDirTree ⟨rfl, by decide⟩⟩

/-! ## The latest release -/

section LatestLemmas

variable {Version : Type}

theorem getElem?_snoc {α : Type} (l : List α) (x : α) (j : Nat) (y : α)
    (h : (l ++ [x])[j]? = some y) : l[j]? = some y ∨ (j = l.length ∧ y = x) := by
  by_cases hj : j < l.length
  · rw [List.getElem?_append_left hj] at h
    exact Or.inl h
  · right
    rw [List.getElem?_append_right (by omega)] at h
    have hlen : j - l.length < 1 := by
      by_contra hc
      rw [List.getElem?_eq_none (by simp; omega)] at h
      cases h
    have : j - l.length = 0 := by omega
    rw [this] at h
    simp at h
    exact ⟨by omega, h.symm⟩

theorem getElem?_snoc_of_some {α : Type} (l : List α) (x : α) (i : Nat) (y : α)
    (h : l[i]? = some y) : (l ++ [x])[i]? = some y ∧ i < l.length := by
  have hi : i < l.length := by
    by_contra hc
    rw [List.getElem?_eq_none (by omega)] at h
    cases h
  exact ⟨by rw [List.getElem?_append_left hi]; exact h, hi⟩

theorem latestInv_keep (env : Env Version) (l : List RepositoryRelease) (x : RepositoryRelease)
    (st : Option RepositoryRelease × Option Version) (h : LatestInv env l st)
    (hx : ∀ tag, x.TagName = some tag → env.ParseSemantic tag = none) :
    LatestInv env (l ++ [x]) st := by
  rcases h with ⟨hst, hall⟩ | ⟨i, rel, tag, v, hi, htag, hv, hst, hmax⟩
  · left
    refine ⟨hst, ?_⟩
    intro y hy
    rw [List.mem_append, List.mem_singleton] at hy
    rcases hy with hy | rfl
    · exact hall y hy
    · exact hx
  · right
    refine ⟨i, rel, tag, v, (getElem?_snoc_of_some l x i rel hi).1, htag, hv, hst, ?_⟩
    intro j y t w hj ht hw
    rcases getElem?_snoc l x j y hj with hj | ⟨-, rfl⟩
    · exact hmax j y t w hj ht hw
    · rw [hx t ht] at hw
      cases hw

theorem mem_listedVersions {env : Env Version} {l : List RepositoryRelease}
    {x : RepositoryRelease} {t : String} {w : Version}
    (hx : x ∈ l) (ht : x.TagName = some t) (hw : env.ParseSemantic t = some w) :
    w ∈ listedVersions env l := by
  unfold listedVersions
  rw [List.mem_filterMap]
  exact ⟨x, hx, by simp [ht, hw]⟩

theorem latestInv_step (env : Env Version) (S : List Version)
    (hirr : ∀ a ∈ S, env.LessThan a a = false)
    (htrans : ∀ a ∈ S, ∀ b ∈ S, ∀ c ∈ S,
      env.LessThan a b = true → env.LessThan b c = true → env.LessThan a c = true)
    (hneg : ∀ a ∈ S, ∀ b ∈ S, ∀ c ∈ S,
      env.LessThan a c = true → env.LessThan a b = true ∨ env.LessThan b c = true)
    (l : List RepositoryRelease) (x : RepositoryRelease)
    (hS : ∀ y ∈ l ++ [x], ∀ t w, y.TagName = some t → env.ParseSemantic t = some w → w ∈ S)
    (st : Option RepositoryRelease × Option Version) (h : LatestInv env l st) :
    LatestInv env (l ++ [x]) (latestStep env st x) := by
  have hSl : ∀ (j : Nat) (y : RepositoryRelease) (t : String) (w : Version),
      l[j]? = some y → y.TagName = some t → env.ParseSemantic t = some w → w ∈ S :=
    fun j y t w hj ht hw =>
    hS y (List.mem_append_left _ (List.getElem?_mem hj)) t w ht hw
  unfold latestStep
  cases hxt : x.TagName with
  | none =>
    apply latestInv_keep env l x st h
    intro tag ht
    rw [hxt] at ht
    cases ht
  | some xtag =>
    simp only
    cases hxv : env.ParseSemantic xtag with
    | none =>
      simp only
      apply latestInv_keep env l x st h
      intro tag ht
      rw [hxt] at ht
      cases ht
      exact hxv
    | some sv =>
      simp only
      have hsv : sv ∈ S := hS x (by simp) xtag sv hxt hxv
      have hlast : (l ++ [x])[l.length]? = some x := by simp
      rcases h with ⟨hst, hall⟩ | ⟨i, rel, tag, v, hi, htag, hv, hst, hmax⟩
      · subst hst
        right
        refine ⟨l.length, x, xtag, sv, hlast, hxt, hxv, rfl, ?_⟩
        intro j y t w hj ht hw
        rcases getElem?_snoc l x j y hj with hj | ⟨hjl, rfl⟩
        · rw [hall y (List.getElem?_mem hj) t ht] at hw
          cases hw
        · rw [hxt] at ht
          cases ht
          rw [hxv] at hw
          cases hw
          exact ⟨hirr _ hsv, fun _ => by omega⟩
      · subst hst
        have hvS : v ∈ S := hSl i rel tag v hi htag hv
        simp only
        by_cases hlt : env.LessThan v sv = true
        · rw [if_pos hlt]
          right
          refine ⟨l.length, x, xtag, sv, hlast, hxt, hxv, rfl, ?_⟩
          intro j y t w hj ht hw
          rcases getElem?_snoc l x j y hj with hj | ⟨hjl, rfl⟩
          · have hwS : w ∈ S := hSl j y t w hj ht hw
            have hm := (hmax j y t w hj ht hw).1
            have h1 : env.LessThan sv w = false := by
              cases hc : env.LessThan sv w with
              | false => rfl
              | true =>
                rw [htrans v hvS sv hsv w hwS hlt hc] at hm
                cases hm
            refine ⟨h1, ?_⟩
            intro h2
            rcases hneg v hvS w hwS sv hsv hlt with h3 | h3
            · rw [h3] at hm
              cases hm
            · rw [h3] at h2
              cases h2
          · rw [hxt] at ht
            cases ht
            rw [hxv] at hw
            cases hw
            exact ⟨hirr _ hsv, fun _ => by omega⟩
        · rw [if_neg hlt]
          right
          have hi2 := getElem?_snoc_of_some l x i rel hi
          refine ⟨i, rel, tag, v, hi2.1, htag, hv, rfl, ?_⟩
          intro j y t w hj ht hw
          rcases getElem?_snoc l x j y hj with hj | ⟨hjl, rfl⟩
          · exact hmax j y t w hj ht hw
          · rw [hxt] at ht
            cases ht
            rw [hxv] at hw
            cases hw
            refine ⟨by simpa using hlt, fun _ => by omega⟩

theorem latestInv_foldl (env : Env Version) (S : List Version)
    (hirr : ∀ a ∈ S, env.LessThan a a = false)
    (htrans : ∀ a ∈ S, ∀ b ∈ S, ∀ c ∈ S,
      env.LessThan a b = true → env.LessThan b c = true → env.LessThan a c = true)
    (hneg : ∀ a ∈ S, ∀ b ∈ S, ∀ c ∈ S,
      env.LessThan a c = true → env.LessThan a b = true ∨ env.LessThan b c = true)
    (l : List RepositoryRelease) :
    (∀ y ∈ l, ∀ t w, y.TagName = some t → env.ParseSemantic t = some w → w ∈ S) →
    LatestInv env l (l.foldl (latestStep env) (none, none)) := by
  induction l using List.reverseRecOn with
  | nil => intro _; exact Or.inl ⟨rfl, by simp⟩
  | append_singleton l x ih =>
    intro hS
    rw [List.foldl_append]
    exact latestInv_step env S hirr htrans hneg l x hS _
      (ih (fun y hy => hS y (List.mem_append_left _ hy)))

end LatestLemmas

/-- C1, amended: when the API lists releases of which at least one has a tag that
parses as a semantic version, and `LessThan` of the version library is a strict
weak order on the versions of the listed tags (no version is less than itself, the
order is transitive, and of `a` less than `c` follows `a` less than `b` or `b` less
than `c`), `getLatestRelease` returns, with a nil error, a release of the list
whose tag parses, whose version no listed version is greater than, and which is the
first of the list among those whose version is not less than its own; releases
without a tag or with a tag that does not parse are passed over. -/
theorem getLatestRelease_max {Version : Type} (env : Env Version) (r : githubRepository)
    (releases : List RepositoryRelease)
    (hirr : ∀ a ∈ listedVersions env releases, env.LessThan a a = false)
    (htrans : ∀ a ∈ listedVersions env releases, ∀ b ∈ listedVersions env releases,
      ∀ c ∈ listedVersions env releases,
      env.LessThan a b = true → env.LessThan b c = true → env.LessThan a c = true)
    (hneg : ∀ a ∈ listedVersions env releases, ∀ b ∈ listedVersions env releases,
      ∀ c ∈ listedVersions env releases,
      env.LessThan a c = true → env.LessThan a b = true ∨ env.LessThan b c = true)
    (hapi : env.ListReleases r.httpClient r.owner r.repo = Except.ok releases)
    (hex : ∃ x ∈ releases, ∃ tag v, x.TagName = some tag ∧ env.ParseSemantic tag = some v) :
    ∃ (i : Nat) (rel : RepositoryRelease) (tag : String) (v : Version),
      releases[i]? = some rel ∧ rel.TagName = some tag ∧
      env.ParseSemantic tag = some v ∧
      (getLatestRelease env r).out = Outcome.ret (some rel, none) ∧
      ∀ (j : Nat) (x : RepositoryRelease) (t : String) (w : Version),
        releases[j]? = some x → x.TagName = some t → env.ParseSemantic t = some w →
        env.LessThan v w = false ∧ (env.LessThan w v = false → i ≤ j) := by
  rcases latestInv_foldl env (listedVersions env releases) hirr htrans hneg releases
      (fun y hy t w ht hw => mem_listedVersions hy ht hw) with
    ⟨-, hall⟩ | ⟨i, rel, tag, v, hi, htag, hv, hst, hmax⟩
  · obtain ⟨x, hx, tag, v, ht, hv⟩ := hex
    rw [hall x hx tag ht] at hv
    cases hv
  · refine ⟨i, rel, tag, v, hi, htag, hv, ?_, hmax⟩
    unfold getLatestRelease
    simp only [bind_eq, call_bind, hapi, hst, htag, pure_eq]

/-- C1, amended, at releases tagged `v0.1.0`, `nightly`, `v0.2.0-rc.1`, not at all,
`v0.2.0` and `v0.2.0+build.5`, with the order of the version library. -/
theorem getLatestRelease_max_witness :
    ∃ (i : Nat) (rel : RepositoryRelease) (tag : String) (v : version.Version),
      taggedReleases[i]? = some rel ∧ rel.TagName = some tag ∧
      (libEnv taggedReleases).ParseSemantic tag = some v ∧
      (getLatestRelease (libEnv taggedReleases) ⟨none, "o", "r"⟩).out
        = Outcome.ret (some rel, none) ∧
      ∀ (j : Nat) (x : RepositoryRelease) (t : String) (w : version.Version),
        taggedReleases[j]? = some x → x.TagName = some t →
        (libEnv taggedReleases).ParseSemantic t = some w →
        (libEnv taggedReleases).LessThan v w = false ∧
          ((libEnv taggedReleases).LessThan w v = false → i ≤ j) :=
  getLatestRelease_max (libEnv taggedReleases) ⟨none, "o", "r"⟩ taggedReleases
    (by decide) (by decide) (by decide) rfl
    ⟨⟨some "v0.1.0", []⟩, by decide, "v0.1.0", ⟨[0, 1, 0], true, "", ""⟩, rfl, by decide⟩

/-- C1 as stated fails: with the releases `v1.0.0-2`, `v1.0.0-10` and `v1.0.0-1a` the
version library has `2` less than `10` (as numbers), `10` less than `1a` and `1a`
less than `2` (as strings); `getLatestRelease` returns `v1.0.0-1a`, whose version
is less than the version of the listed release `v1.0.0-2`, so no release of the
list is returned with a version that no listed version is greater than. -/
theorem getLatestRelease_not_max :
    (libEnv mixedReleases).ListReleases none "o" "r" = Except.ok mixedReleases ∧
    (getLatestRelease (libEnv mixedReleases) ⟨none, "o", "r"⟩).out
      = Outcome.ret (some ⟨some "v1.0.0-1a", []⟩, none) ∧
    version.ParseSemantic "v1.0.0-1a" = some ⟨[1, 0, 0], true, "1a", ""⟩ ∧
    version.ParseSemantic "v1.0.0-2" = some ⟨[1, 0, 0], true, "2", ""⟩ ∧
    (⟨some "v1.0.0-2", []⟩ : RepositoryRelease) ∈ mixedReleases ∧
    version.LessThan ⟨[1, 0, 0], true, "1a", ""⟩ ⟨[1, 0, 0], true, "2", ""⟩ = true ∧
    version.LessThan ⟨[1, 0, 0], true, "2", ""⟩ ⟨[1, 0, 0], true, "10", ""⟩ = true ∧
    version.LessThan ⟨[1, 0, 0], true, "10", ""⟩ ⟨[1, 0, 0], true, "1a", ""⟩ = true ∧
    ¬ ∃ (i : Nat) (rel : RepositoryRelease) (tag : String) (v : version.Version),
      mixedReleases[i]? = some rel ∧ rel.TagName = some tag ∧
      (libEnv mixedReleases).ParseSemantic tag = some v ∧
      (getLatestRelease (libEnv mixedReleases) ⟨none, "o", "r"⟩).out
        = Outcome.ret (some rel, none) ∧
      ∀ (j : Nat) (x : RepositoryRelease) (t : String) (w : version.Version),
        mixedReleases[j]? = some x → x.TagName = some t →
        (libEnv mixedReleases).ParseSemantic t = some w →
        (libEnv mixedReleases).LessThan v w = false ∧
          ((libEnv mixedReleases).LessThan w v = false → i ≤ j) := by
  refine ⟨by decide, by decide, by decide, by decide, by decide, by decide, by decide,
    by decide, ?_⟩
  rintro ⟨i, rel, tag, v, -, htag, hv, hout, hmax⟩
  have h0 : (getLatestRelease (libEnv mixedReleases) ⟨none, "o", "r"⟩).out
      = Outcome.ret (some ⟨some "v1.0.0-1a", []⟩, none) := by decide
  rw [h0] at hout
  have hrel : rel = ⟨some "v1.0.0-1a", []⟩ := by
    injection hout with hout
    injection hout with hout _
    injection hout with hout
    exact hout.symm
  subst hrel
  have htag2 : tag = "v1.0.0-1a" := by
    injection htag with htag
    exact htag.symm
  subst htag2
  have hv2 : (libEnv mixedReleases).ParseSemantic "v1.0.0-1a"
      = some ⟨[1, 0, 0], true, "1a", ""⟩ := by decide
  rw [hv2] at hv
  injection hv with hv
  subst hv
  have hlt := (hmax 0 ⟨some "v1.0.0-2", []⟩ "v1.0.0-2" ⟨[1, 0, 0], true, "2", ""⟩
    (by decide) rfl (by decide)).1
  revert hlt
  decide

/-! ## The tree of a repository -/

section TreeLemmas

variable {Version : Type}

mutual
theorem resources_length : ∀ t : Tree, t.resources.length = t.fileCount
  | Tree.file _ _ _ _ => by simp [Tree.resources, Tree.fileCount]
  | Tree.dir _ entries => by
    simp only [Tree.resources, Tree.fileCount]
    exact resourcesList_length entries
theorem resourcesList_length : ∀ ts : List Tree,
    (Tree.resourcesList ts).length = Tree.fileCountList ts
  | [] => by simp [Tree.resourcesList, Tree.fileCountList]
  | t :: ts => by
    simp only [Tree.resourcesList, Tree.fileCountList, List.length_append]
    rw [resources_length t, resourcesList_length ts]
end

theorem resourcesList_eq_flatten (ts : List Tree) :
    Tree.resourcesList ts = (ts.map Tree.resources).flatten := by
  induction ts with
  | nil => rfl
  | cons t ts ih => simp [Tree.resourcesList, ih]

theorem height_le_heightList {t : Tree} {ts : List Tree} (h : t ∈ ts) :
    t.height ≤ Tree.heightList ts := by
  induction ts with
  | nil => cases h
  | cons u us ih =>
    simp only [Tree.heightList]
    rcases List.mem_cons.mp h with rfl | hm
    · exact Nat.le_max_left _ _
    · exact Nat.le_trans (ih hm) (Nat.le_max_right _ _)

theorem serves_of_mem {env : Env Version} {r : githubRepository} {t : Tree} {ts : List Tree}
    (hs : ServesList env r ts) (h : t ∈ ts) : Serves env r t := by
  induction ts with
  | nil => cases h
  | cons u us ih =>
    simp only [ServesList] at hs
    rcases List.mem_cons.mp h with rfl | hm
    · exact hs.1
    · exact ih hs.2 hm

mutual
theorem download_tree (env : Env Version) (r : githubRepository) (SHA : String) :
    ∀ (t : Tree) (fuel : Nat), Serves env r t → t.height ≤ fuel →
      (downloadResourcesFromTree env r fuel SHA t.path).out = Outcome.ret (t.resources, none)
  | Tree.file path encoded reported bytes, fuel, hs, hf => by
    simp only [Serves] at hs
    obtain ⟨⟨items, hg⟩, hd⟩ := hs
    cases fuel with
    | zero => simp [Tree.height] at hf
    | succ fuel =>
      simp [downloadResourcesFromTree, Tree.path, Tree.resources, hg, hd]
  | Tree.dir path entries, fuel, hs, hf => by
    simp only [Serves] at hs
    obtain ⟨hg, hl⟩ := hs
    cases fuel with
    | zero => simp [Tree.height] at hf
    | succ fuel =>
      simp only [Tree.height, Nat.add_le_add_iff_right] at hf
      simp only [downloadResourcesFromTree, Tree.path, Tree.resources, bind_eq, call_bind, hg]
      have := download_list env r SHA entries fuel [] hl hf
      simpa using this
theorem download_list (env : Env Version) (r : githubRepository) (SHA : String) :
    ∀ (ts : List Tree) (fuel : Nat) (acc : List Resource), ServesList env r ts →
      Tree.heightList ts ≤ fuel →
      (downloadItems (downloadResourcesFromTree env r fuel SHA) (ts.map Tree.entry) acc).out
        = Outcome.ret (acc ++ Tree.resourcesList ts, none)
  | [], fuel, acc, _, _ => by simp [downloadItems, Tree.resourcesList]
  | t :: ts, fuel, acc, hs, hf => by
    simp only [ServesList] at hs
    simp only [Tree.heightList, Nat.max_le] at hf
    have h1 := download_tree env r SHA t fuel hs.1 hf.1
    have h2 := download_list env r SHA ts fuel (acc ++ t.resources) hs.2 hf.2
    simp only [List.map_cons, downloadItems, Tree.entry, bind_eq]
    rw [bind_out_of_ret h1]
    simp only [Tree.resourcesList, ← List.append_assoc]
    exact h2
end

end TreeLemmas

/-- C7: when the contents API presents a directory of a repository tree whose
files are base64 encoded, `downloadResourcesFromTree`, given fuel for the height of
the tree, returns for every entry the files below that entry, and for the directory
the concatenation of these lists in the order of the entries, with a nil error; the
number of resources is the number of files below the directory. -/
theorem downloadResourcesFromTree_dir {Version : Type} (env : Env Version) (r : githubRepository)
    (SHA path : String) (entries : List Tree) (fuel : Nat)
    (hs : Serves env r (Tree.dir path entries))
    (hf : (Tree.dir path entries).height ≤ fuel) :
    (∀ e ∈ entries,
      (downloadResourcesFromTree env r fuel SHA e.path).out = Outcome.ret (e.resources, none)) ∧
    (downloadResourcesFromTree env r fuel SHA path).out
      = Outcome.ret ((entries.map Tree.resources).flatten, none) ∧
    ((entries.map Tree.resources).flatten).length = (Tree.dir path entries).fileCount := by
  refine ⟨?_, ?_, ?_⟩
  · intro e he
    have hse : Serves env r e := by
      simp only [Serves] at hs
      exact serves_of_mem hs.2 he
    apply download_tree env r SHA e fuel hse
    have := height_le_heightList he
    simp only [Tree.height] at hf
    omega
  · rw [← resourcesList_eq_flatten]
    exact download_tree env r SHA (Tree.dir path entries) fuel hs hf
  · rw [← resourcesList_eq_flatten]
    exact resources_length (Tree.dir path entries)

/-- C7 at the example repository: the directory `manifests` holds `a.yaml` and a
subdirectory with `b.yaml`; both are returned, and nothing else. -/
theorem downloadResourcesFromTree_dir_witness :
    Serves demoEnv ⟨none, "o", "r"⟩ demoTree ∧
    (downloadResourcesFromTree demoEnv ⟨none, "o", "r"⟩ 3 demoSHA "manifests").out
      = Outcome.ret ([⟨"manifests/a.yaml", [97]⟩, ⟨"manifests/sub/b.yaml", [98]⟩], none) ∧
    ([⟨"manifests/a.yaml", [97]⟩, ⟨"manifests/sub/b.yaml", [98]⟩] : List Resource).length
      = demoTree.fileCount :=
  have hs : Serves demoEnv ⟨none, "o", "r"⟩ demoTree :=
    ⟨rfl, ⟨⟨_, rfl⟩, rfl⟩, ⟨rfl, ⟨⟨_, rfl⟩, rfl⟩, trivial⟩, trivial⟩
  ⟨hs, (downloadResourcesFromTree_dir demoEnv ⟨none, "o", "r"⟩ demoSHA "manifests" _ 3 hs
    (by decide)).2⟩

/-! ## The defects in general

The evaluations above are instances of what the code does in every world. -/

section Defects

variable {Version : Type}

theorem latestStep_skip (env : Env Version) (st : Option RepositoryRelease × Option Version)
    (x : RepositoryRelease)
    (hx : ∀ tag, x.TagName = some tag → env.ParseSemantic tag = none) :
    latestStep env st x = st := by
  unfold latestStep
  cases ht : x.TagName with
  | none => rfl
  | some tag => simp [hx tag ht]

theorem foldl_latestStep_none (env : Env Version) (l : List RepositoryRelease)
    (h : ∀ x ∈ l, ∀ tag, x.TagName = some tag → env.ParseSemantic tag = none)
    (st : Option RepositoryRelease × Option Version) :
    l.foldl (latestStep env) st = st := by
  induction l generalizing st with
  | nil => rfl
  | cons x rest ih =>
    rw [List.foldl_cons, latestStep_skip env st x (h x (List.mem_cons_self _ _))]
    exact ih (fun y hy => h y (List.mem_cons_of_mem _ hy)) st

/-- Whatever the world, `getLatestRelease` returns `NoLatestRelease` when no release
has a tag that parses. -/
theorem getLatestRelease_none (env : Env Version) (r : githubRepository)
    (releases : List RepositoryRelease)
    (hapi : env.ListReleases r.httpClient r.owner r.repo = Except.ok releases)
    (h : ∀ x ∈ releases, ∀ tag, x.TagName = some tag → env.ParseSemantic tag = none) :
    (getLatestRelease env r).out = Outcome.ret (none, some NoLatestRelease) := by
  unfold getLatestRelease
  simp [hapi, foldl_latestStep_none env releases h]

/-- Whatever the world, `getLatestRelease` returns `RateLimitExceeded` when listing
the releases hits the rate limit. -/
theorem getLatestRelease_rateLimit (env : Env Version) (r : githubRepository)
    (hapi : env.ListReleases r.httpClient r.owner r.repo = Except.error Error.rateLimit) :
    (getLatestRelease env r).out = Outcome.ret (none, some RateLimitExceeded) := by
  unfold getLatestRelease
  simp [hapi, handleGithubErr]

/-- Whatever the world, `lookupGitHubRepository` panics on a path for the latest
release as soon as `getLatestRelease` returns no release: its error is dropped. -/
theorem lookupGitHubRepository_latest_crash (env : Env Version) (fuel : Nat)
    (path token owner repo asset : String) (rest : List String)
    (hsplit : Split (TrimPrefix path "/") '/' = owner :: repo :: "releases" :: "latest" :: asset :: rest)
    (hnil : ∀ client, ∃ err, (getLatestRelease env ⟨client, owner, repo⟩).out = Outcome.ret (none, err)) :
    (lookupGitHubRepository env fuel path token).out = Outcome.crash := by
  have h5 : ¬ (rest.length + 1 + 1 + 1 + 1 + 1 < 5) := by omega
  unfold lookupGitHubRepository
  simp only [hsplit, List.length_cons, List.getD_cons_zero, List.getD_cons_succ, if_neg h5]
  by_cases ht : token = ""
  · obtain ⟨err, he⟩ := hnil none
    simp [ht, Run.bind, he, crash]
  · obtain ⟨err, he⟩ := hnil (some token)
    simp [ht, Run.bind, authenticate, call, he, crash]

/-- Whatever the world, `getSHA` returns the empty string and a nil error for a name
that is no branch and no tag. -/
theorem getSHA_no_match (env : Env Version) (r : githubRepository) (branchOrTag : String)
    (branches : List Branch) (tags : List RepositoryTag)
    (hb : env.ListBranches r.httpClient r.owner r.repo = Except.ok branches)
    (hnb : ∀ b ∈ branches, b.Name ≠ some branchOrTag)
    (ht : env.ListTags r.httpClient r.owner r.repo = Except.ok tags)
    (hnt : ∀ t ∈ tags, t.Name ≠ some branchOrTag) :
    getSHA env r branchOrTag
      = ⟨[Call.NewClient r.httpClient, Call.ListBranches r.owner r.repo, Call.ListTags r.owner r.repo],
         Outcome.ret ("", none)⟩ := by
  have h1 : branches.find? (fun b => decide (b.Name = some branchOrTag)) = none := by
    rw [List.find?_eq_none]
    intro b hm
    simpa using hnb b hm
  have h2 : tags.find? (fun t => decide (t.Name = some branchOrTag)) = none := by
    rw [List.find?_eq_none]
    intro t hm
    simpa using hnt t hm
  unfold getSHA
  simp [hb, ht, h1, h2, Wrapf]

/-- Whatever the world, `downloadResourcesFromTree` returns no resource and a nil
error for a file whose encoding is not base64. -/
theorem downloadResourcesFromTree_encoding (env : Env Version) (r : githubRepository)
    (fuel : Nat) (SHA path : String) (fileContent : RepositoryContent)
    (items : List RepositoryContent)
    (hg : env.GetContents r.httpClient r.owner r.repo path none = Except.ok (some fileContent, items))
    (he : fileContent.Encoding ≠ some "base64") :
    (downloadResourcesFromTree env r (fuel + 1) SHA path).out = Outcome.ret ([], none) := by
  unfold downloadResourcesFromTree
  simp [hg, he, Wrapf]

/-- Whatever the world, `downloadResourcesFromTree` returns one resource, with the
reported path and the decoded bytes, for a base64 file whose content decodes. -/
theorem downloadResourcesFromTree_file (env : Env Version) (r : githubRepository)
    (fuel : Nat) (SHA path encoded reported : String) (bytes : Bytes)
    (items : List RepositoryContent)
    (hg : env.GetContents r.httpClient r.owner r.repo path none
      = Except.ok (some ⟨some "base64", some encoded, some reported⟩, items))
    (hd : env.DecodeString encoded = Except.ok bytes) :
    (downloadResourcesFromTree env r (fuel + 1) SHA path).out
      = Outcome.ret ([⟨reported, bytes⟩], none) := by
  unfold downloadResourcesFromTree
  simp [hg, hd]

theorem bind_calls_mem {α β : Type} {x : Run α} {f : α → Run β} {c : Call}
    (h : c ∈ (Run.bind x f).calls) : c ∈ x.calls ∨ ∃ a, c ∈ (f a).calls := by
  unfold Run.bind at h
  cases hx : x.out with
  | ret a =>
    rw [hx] at h
    rcases List.mem_append.mp h with h | h
    · exact Or.inl h
    · exact Or.inr ⟨a, h⟩
  | crash => rw [hx] at h; exact Or.inl h
  | outOfFuel => rw [hx] at h; exact Or.inl h

theorem downloadItems_calls (recurse : String → Run (List Resource × Option Error))
    (hrec : ∀ p, ∀ c ∈ (recurse p).calls, ContentsWithoutRef c)
    (items : List RepositoryContent) :
    ∀ acc, ∀ c ∈ (downloadItems recurse items acc).calls, ContentsWithoutRef c := by
  induction items with
  | nil => intro acc c hc; simp [downloadItems] at hc
  | cons item rest ih =>
    intro acc c hc
    unfold downloadItems at hc
    cases hp : item.Path with
    | none => rw [hp] at hc; simp [crash] at hc
    | some itemPath =>
      rw [hp] at hc
      simp only [bind_eq] at hc
      rcases bind_calls_mem hc with h | ⟨⟨itemResources, err⟩, h⟩
      · exact hrec _ c h
      · cases err with
        | some e => simp at h
        | none => exact ih _ c h

/-- Whatever the world, the calls of `downloadResourcesFromTree` ask the contents
without a ref: the SHA is never sent. -/
theorem downloadResourcesFromTree_calls (env : Env Version) (r : githubRepository) (fuel : Nat) :
    ∀ (SHA path : String), ∀ c ∈ (downloadResourcesFromTree env r fuel SHA path).calls,
      ContentsWithoutRef c := by
  induction fuel with
  | zero => intro SHA path c hc; simp [downloadResourcesFromTree] at hc
  | succ fuel ih =>
    intro SHA path c hc
    unfold downloadResourcesFromTree at hc
    simp only [bind_eq, call_bind, List.mem_cons] at hc
    rcases hc with rfl | rfl | hc
    · trivial
    · rfl
    · split at hc
      · simp at hc
      · split at hc
        · simp at hc
        · split at hc
          · simp [crash] at hc
          · split at hc
            · simp at hc
            · split at hc
              · simp [crash] at hc
              · simp at hc
      · exact downloadItems_calls _ (fun p c h => ih SHA p c h) _ _ c hc

/-- Whatever the world, for a tree path whose ref has 40 bytes `lookupGitHubRepository`
lists no branch and no tag, and asks every contents without a ref. -/
theorem lookupGitHubRepository_sha_calls (env : Env Version) (fuel : Nat)
    (path token owner repo ref resourcePath : String) (rest : List String)
    (hsplit : Split (TrimPrefix path "/") '/' = owner :: repo :: "tree" :: ref :: resourcePath :: rest)
    (h40 : len ref = 40) :
    ∀ c ∈ (lookupGitHubRepository env fuel path token).calls, ContentsWithoutRef c := by
  intro c hc
  have h5 : ¬ (rest.length + 1 + 1 + 1 + 1 + 1 < 5) := by omega
  unfold lookupGitHubRepository at hc
  simp only [hsplit, List.length_cons, List.getD_cons_zero, List.getD_cons_succ, if_neg h5] at hc
  simp only [h40, bind_eq, pure_eq, ret_bind] at hc
  by_cases ht : token = ""
  · simp [ht] at hc
    exact downloadResourcesFromTree_calls env _ fuel _ _ c hc
  · simp [ht, authenticate, Run.bind, call] at hc
    rcases hc with hc | hc
    · rw [hc]
      trivial
    · exact downloadResourcesFromTree_calls env _ fuel _ _ c hc

end Defects

end Clusteradm
